import Mathlib

/-!
# Line Echoer (`PP2/pages/api/code/temp/Main.go`)

A shallow embedding of the Go program

```go
func main() {
	reader := bufio.NewReader(os.Stdin)
	input, _ := reader.ReadString('\n')
	fmt.Printf("You entered: %s", input)
}
```

together with the parts of the Go runtime library that `main` calls:
`os.File.Read`, `bufio.Reader` (`fill`, `ReadSlice`, `collectFragments`,
`ReadString`) and the fragment of `fmt.Fprintf` that handles literal text and
the `%s`, `%v` and `%%` verbs.  State is passed explicitly: a `World` holds
the three standard streams and the log of effects, a `Reader` holds the
buffered reader's unread bytes.  Standard input is a file, finite data with
an ending, or that data followed by zero bytes without end.  The two
unbounded `for` loops of `bufio` take a step budget.
-/

namespace PP2

/-! ## Data model -/

/-- A byte of a stream. -/
abbrev Byte := UInt8

/-- The delimiter `'\n'` that `main` passes to `ReadString`. -/
def newline : Byte := 10

/-- Go `error` values that can reach `main`. -/
inductive Error
  | EOF            -- io.EOF
  | ErrNoProgress  -- io.ErrNoProgress
  | ErrBufferFull  -- bufio.ErrBufferFull
  | PathError      -- *fs.PathError wrapping the errno of a failed read(2)
  deriving DecidableEq, Repr

/-- How a stream ends once its data is used up: with end-of-stream, or with
an I/O error of the descriptor. -/
inductive Ending
  | eof
  | fault
  deriving DecidableEq, Repr

/-- The error `os.File.Read` reports for an ending. -/
def Ending.toError : Ending → Error
  | .eof => .EOF
  | .fault => .PathError

/-- An open file such as `os.Stdin`: `data` are the bytes that are still to
be delivered, `avail` says for the successive `Read` calls how many bytes
beyond the first the descriptor has ready (a short read; past the end of the
list everything is ready), `ending` is what the descriptor reports once
`data` is used up. -/
structure File where
  data : List Byte
  avail : List Nat
  ending : Ending
  deriving DecidableEq, Repr

/-- An observable effect of the process. -/
inductive Event
  | call (op : String)                  -- main enters a library operation
  | ret (op : String)                   -- the operation returns to main
  | read (fd : Nat) (n : Nat)           -- read(2) on fd delivered n bytes
  | write (fd : Nat) (data : List Byte) -- write(2) of data on fd
  | openFile (path : String)
  | connect (addr : String)
  | getenv (key : String)
  deriving DecidableEq, Repr

/-- The process environment: the three standard streams and the log of
effects so far.  When `zeros` is set, standard input is a stream without
end: after the data of `stdin` it goes on with zero bytes for ever, as the
device `/dev/zero` does, and the ending of `stdin` is never reached. -/
structure World where
  stdin : File
  stdout : List Byte
  stderr : List Byte
  log : List Event
  zeros : Bool := false
  deriving DecidableEq, Repr

/-- The world at process start, with `f` on standard input. -/
def World.init (f : File) : World :=
  { stdin := f, stdout := [], stderr := [], log := [] }

/-- The world at process start, with on standard input the data of `f`,
followed by its ending when `z` is `false` and by zero bytes without end
when `z` is `true`. -/
def World.initWith (f : File) (z : Bool) : World :=
  { stdin := f, stdout := [], stderr := [], log := [], zeros := z }

/-- A `bufio.Reader` on `os.Stdin`: `buf` is the unread part
`b.buf[b.r:b.w]` of the buffer, `size` is `len(b.buf)`, `err` is `b.err`. -/
structure Reader where
  buf : List Byte
  size : Nat
  err : Option Error
  deriving DecidableEq, Repr

/-- The result of running a piece of the program with a step budget. -/
inductive Run (α : Type)
  | done (a : α)           -- returned normally
  | panic (msg : String)   -- a Go panic
  | outOfFuel              -- the step budget ran out
  | unmodelled             -- behaviour outside the modelled fragment
  deriving DecidableEq, Repr

/-- The exit status of the process: 0 when `main` returns, 2 on a panic. -/
def Run.exitCode {α : Type} : Run α → Option Nat
  | .done _ => some 0
  | .panic _ => some 2
  | .outOfFuel => none
  | .unmodelled => none

/-! ## `os.File.Read` -/

/-- The call `f.Read(p)` with `len(p) = cap`: the bytes read, the error, and
the file afterwards.  A read of a zero-length slice returns `0, nil`; at the
end of the data the ending is reported with no bytes; otherwise at least one
byte and at most `cap` bytes are delivered. -/
def File.Read (f : File) (cap : Nat) : (List Byte × Option Error) × File :=
  if cap = 0 then (([], none), f)
  else if f.data = [] then (([], some f.ending.toError), f)
  else
    let n := min cap (1 + f.avail.headD f.data.length)
    ((f.data.take n, none), { f with data := f.data.drop n, avail := f.avail.tail })

/-- The call `os.Stdin.Read(p)` with `len(p) = cap`, logged.  On a standard
input without end, once the data of the file is delivered, the read fills
the whole of `p` with zero bytes. -/
def World.readStdin (w : World) (cap : Nat) : (List Byte × Option Error) × World :=
  let r :=
    if w.zeros = true ∧ w.stdin.data = [] then ((List.replicate cap 0, none), w.stdin)
    else w.stdin.Read cap
  (r.1, { w with stdin := r.2, log := w.log ++ [Event.read 0 r.1.1.length] })

/-- The call `os.Stdout.Write(p)`, logged. -/
def World.writeStdout (w : World) (p : List Byte) : World :=
  { w with stdout := w.stdout ++ p, log := w.log ++ [Event.write 1 p] }

/-! ## `bufio.Reader` -/

/-- The constant `defaultBufSize` of `bufio`. -/
def defaultBufSize : Nat := 4096

/-- The constant `maxConsecutiveEmptyReads` of `bufio`. -/
def maxConsecutiveEmptyReads : Nat := 100

/-- The call `bufio.NewReader(os.Stdin)`. -/
def NewReader : Reader :=
  { buf := [], size := defaultBufSize, err := none }

/-- The function `bytes.IndexByte`: the index of the first `c` in `b`. -/
def IndexByte : List Byte → Byte → Option Nat
  | [], _ => none
  | x :: xs, c => if x = c then some 0 else (IndexByte xs c).map (· + 1)

/-- The read loop of `(*Reader).fill`, `i` attempts left. -/
def fillLoop : Nat → Reader → World → Reader × World
  | 0, b, w => ({ b with err := some Error.ErrNoProgress }, w)
  | i + 1, b, w =>
    let r := w.readStdin (b.size - b.buf.length)
    let b1 : Reader := { b with buf := b.buf ++ r.1.1 }
    match r.1.2 with
    | some e => ({ b1 with err := some e }, r.2)
    | none => if r.1.1.length > 0 then (b1, r.2) else fillLoop i b1 r.2

/-- The method `(*Reader).fill`: read a new chunk into the buffer. -/
def fill (b : Reader) (w : World) : Run (Reader × World) :=
  if b.buf.length ≥ b.size then Run.panic "bufio: tried to fill full buffer"
  else Run.done (fillLoop maxConsecutiveEmptyReads b w)

/-- The loop of `(*Reader).ReadSlice`, with search start `s`. -/
def ReadSliceLoop (delim : Byte) :
    Nat → Nat → Reader → World → Run ((List Byte × Option Error) × Reader × World)
  | 0, _, _, _ => Run.outOfFuel
  | fuel + 1, s, b, w =>
    match IndexByte (b.buf.drop s) delim with
    | some i =>
      Run.done ((b.buf.take (i + s + 1), none), { b with buf := b.buf.drop (i + s + 1) }, w)
    | none =>
      match b.err with
      | some e => Run.done ((b.buf, some e), { b with buf := [], err := none }, w)
      | none =>
        if b.buf.length ≥ b.size then
          Run.done ((b.buf, some Error.ErrBufferFull), { b with buf := [] }, w)
        else
          match fill b w with
          | Run.done (b1, w1) => ReadSliceLoop delim fuel b.buf.length b1 w1
          | Run.panic m => Run.panic m
          | Run.outOfFuel => Run.outOfFuel
          | Run.unmodelled => Run.unmodelled

/-- The method `(*Reader).ReadSlice`. -/
def ReadSlice (fuel : Nat) (delim : Byte) (b : Reader) (w : World) :
    Run ((List Byte × Option Error) × Reader × World) :=
  ReadSliceLoop delim fuel 0 b w

/-- The loop of `(*Reader).collectFragments`: `full` are the full buffers
collected so far, `n` is the budget of each `ReadSlice`. -/
def collectFragmentsLoop (delim : Byte) (n : Nat) :
    Nat → List (List Byte) → Reader → World →
      Run ((List (List Byte) × List Byte × Option Error) × Reader × World)
  | 0, _, _, _ => Run.outOfFuel
  | fuel + 1, full, b, w =>
    match ReadSlice n delim b w with
    | Run.done ((frag, none), b1, w1) => Run.done ((full, frag, none), b1, w1)
    | Run.done ((frag, some e), b1, w1) =>
      if e ≠ Error.ErrBufferFull then Run.done ((full, frag, some e), b1, w1)
      else collectFragmentsLoop delim n fuel (full ++ [frag]) b1 w1
    | Run.panic m => Run.panic m
    | Run.outOfFuel => Run.outOfFuel
    | Run.unmodelled => Run.unmodelled

/-- The method `(*Reader).collectFragments` (its `totalLen` result, which
only sizes an allocation, is left out). -/
def collectFragments (fuel : Nat) (delim : Byte) (b : Reader) (w : World) :
    Run ((List (List Byte) × List Byte × Option Error) × Reader × World) :=
  collectFragmentsLoop delim fuel fuel [] b w

/-- The method `(*Reader).ReadString`: the full pieces and the fragment,
concatenated, and the error. -/
def ReadString (fuel : Nat) (b : Reader) (delim : Byte) (w : World) :
    Run ((List Byte × Option Error) × Reader × World) :=
  match collectFragments fuel delim b w with
  | Run.done ((full, frag, err), b1, w1) => Run.done ((full.flatten ++ frag, err), b1, w1)
  | Run.panic m => Run.panic m
  | Run.outOfFuel => Run.outOfFuel
  | Run.unmodelled => Run.unmodelled

/-! ## `fmt.Printf` -/

/-- The bytes of the text `"You entered: "`. -/
def youEntered : List Byte :=
  [89, 111, 117, 32, 101, 110, 116, 101, 114, 101, 100, 58, 32]

/-- The format string `"You entered: %s"` of the `Printf` call in `main`. -/
def fmtYouEntered : List Byte := youEntered ++ [37, 115]

/-- The formatting loop of `fmt` on string operands, for formats made of
literal text and the verbs `%s`, `%v` and `%%` with as many operands as
verbs; any other format is outside the fragment (`none`). -/
def doPrintf : List Byte → List (List Byte) → Option (List Byte)
  | [], [] => some []
  | [], _ :: _ => none
  | [_], _ :: _ => none
  | c :: d :: rest, a :: args =>
    if c = 37 then
      if d = 115 ∨ d = 118 then (doPrintf rest args).map (a ++ ·)
      else if d = 37 then (doPrintf rest (a :: args)).map (37 :: ·)
      else none
    else (doPrintf (d :: rest) (a :: args)).map (c :: ·)
  | c :: rest, [] =>
    if c = 37 then
      match rest with
      | d :: rest1 => if d = 37 then (doPrintf rest1 []).map (37 :: ·) else none
      | [] => none
    else (doPrintf rest []).map (c :: ·)

/-- The call `fmt.Printf(format, a...)` with string operands: the text is
formatted into a buffer, which is handed to `os.Stdout.Write` in one call;
the results of `Printf` are dropped by `main`. -/
def Printf (fmt : List Byte) (a : List (List Byte)) (w : World) : Run World :=
  match doPrintf fmt a with
  | some p => Run.done (w.writeStdout p)
  | none => Run.unmodelled

/-! ## `main` -/

/-- The state when `main` returns: the world, and the locals `reader` and
`input` with the error value that `main` binds to `_`. -/
structure Exit where
  world : World
  reader : Reader
  input : List Byte
  err : Option Error
  deriving DecidableEq, Repr

/-- The statements of `main` after the read: `fmt.Printf("You entered: %s",
input)`, then return. -/
def mainAfterRead (r : List Byte × Option Error) (reader : Reader) (w : World) : Run Exit :=
  match Printf fmtYouEntered [r.1] { w with log := w.log ++ [Event.call "fmt.Printf"] } with
  | Run.done w1 =>
    Run.done { world := { w1 with log := w1.log ++ [Event.ret "fmt.Printf"] },
               reader := reader, input := r.1, err := r.2 }
  | Run.panic m => Run.panic m
  | Run.outOfFuel => Run.outOfFuel
  | Run.unmodelled => Run.unmodelled

/-- The function `main`. -/
def main (fuel : Nat) (w : World) : Run Exit :=
  let reader := NewReader
  match ReadString fuel reader newline
      { w with log := w.log ++ [Event.call "bufio.ReadString"] } with
  | Run.done (r, reader1, w1) =>
    mainAfterRead r reader1 { w1 with log := w1.log ++ [Event.ret "bufio.ReadString"] }
  | Run.panic m => Run.panic m
  | Run.outOfFuel => Run.outOfFuel
  | Run.unmodelled => Run.unmodelled

/-- The bytes on standard output when the run has ended. -/
def Run.output : Run Exit → Option (List Byte)
  | .done x => some x.world.stdout
  | _ => none

/-- The bytes on standard error when the run has ended. -/
def Run.errput : Run Exit → Option (List Byte)
  | .done x => some x.world.stderr
  | _ => none

/-- The data still undelivered on standard input when the run has ended. -/
def Run.stdinLeft : Run Exit → Option (List Byte)
  | .done x => some x.world.stdin.data
  | _ => none

/-- The log of effects when the run has ended. -/
def Run.trace : Run Exit → Option (List Event)
  | .done x => some x.world.log
  | _ => none

/-- The library operations that `main` entered, in order. -/
def calls : List Event → List String
  | [] => []
  | Event.call op :: es => op :: calls es
  | _ :: es => calls es

/-- The writes in a log, in order. -/
def writes : List Event → List (Nat × List Byte)
  | [] => []
  | Event.write fd d :: es => (fd, d) :: writes es
  | _ :: es => writes es

/-- Whether an event is a read of a descriptor. -/
def Event.isRead : Event → Bool
  | .read _ _ => true
  | _ => false

/-- Whether an event is a write to a descriptor. -/
def Event.isWrite : Event → Bool
  | .write _ _ => true
  | _ => false

/-! ## The specification's words -/

/-- The captured text as the specification describes it: the prefix of the
input up to and including its first `delim`, or the whole input when it has
none. -/
def firstLine (delim : Byte) : List Byte → List Byte
  | [] => []
  | c :: cs => if c = delim then [c] else c :: firstLine delim cs

/-- The input after its first line. -/
def afterFirstLine (delim : Byte) : List Byte → List Byte
  | [] => []
  | c :: cs => if c = delim then cs else afterFirstLine delim cs

/-- A file that holds `input` and then ends, everything ready at once. -/
def File.ofBytes (input : List Byte) : File :=
  { data := input, avail := [], ending := Ending.eof }

/-- The step budget that is enough for a run on the file `f`. -/
def fuelFor (f : File) : Nat := f.data.length + 2

/-! ## Predicates of the proofs -/

/-- The events in `evs` are all reads of descriptor 0. -/
def OnlyReads (evs : List Event) : Prop := ∀ e ∈ evs, ∃ n, e = Event.read 0 n

/-- From `w` to `w1` only standard input was read: the output streams and the
ending are as before, the log grew by reads of descriptor 0, and the data
still to be delivered is a suffix of what it was. -/
structure Frame (w w1 : World) : Prop where
  stdout_eq : w1.stdout = w.stdout
  stderr_eq : w1.stderr = w.stderr
  ending_eq : w1.stdin.ending = w.stdin.ending
  log_eq : ∃ reads, w1.log = w.log ++ reads ∧ OnlyReads reads
  data_le : w1.stdin.data.length ≤ w.stdin.data.length
  zeros_eq : w1.zeros = w.zeros

/-- The state of the reader at a step of the `ReadSlice` loop with search
start `s`: no error is pending, or the pending error is the ending of an
exhausted standard input and the whole buffer was searched. -/
def Pending (b : Reader) (w : World) (s : Nat) : Prop :=
  b.err = none ∨ (b.err = some w.stdin.ending.toError ∧ w.stdin.data = [] ∧ b.buf.length ≤ s)

/-- The steps the `ReadSlice` loop needs at most. -/
def need (b : Reader) (w : World) : Nat :=
  w.stdin.data.length + (if b.err = none then 2 else 1)

/-- What a call of `ReadSlice` that returned `line, e` did. -/
structure SliceResult (delim : Byte) (b : Reader) (w : World) (line : List Byte)
    (e : Option Error) (b1 : Reader) (w1 : World) : Prop where
  err_none : b1.err = none
  size_eq : b1.size = b.size
  frame : Frame w w1
  split : line ++ (b1.buf ++ w1.stdin.data) = b.buf ++ w.stdin.data
  kind : (e = none ∧ ∃ pre, line = pre ++ [delim] ∧ delim ∉ pre) ∨
    (e = some Error.ErrBufferFull ∧ delim ∉ line ∧ line ≠ []) ∨
    (e = some w.stdin.ending.toError ∧ delim ∉ line ∧ b1.buf = [] ∧ w1.stdin.data = [])

/-- What a line read that returned `text, e` did: `text` is the first line
of what the reader had in front of it, the rest is still in front of it, and
the error tells whether the delimiter was found. -/
structure LineResult (delim : Byte) (b : Reader) (w : World) (text : List Byte)
    (e : Option Error) (b1 : Reader) (w1 : World) : Prop where
  err_none : b1.err = none
  size_eq : b1.size = b.size
  frame : Frame w w1
  text_eq : text = firstLine delim (b.buf ++ w.stdin.data)
  rest_eq : b1.buf ++ w1.stdin.data = afterFirstLine delim (b.buf ++ w.stdin.data)
  err_iff : e = none ↔ delim ∈ b.buf ++ w.stdin.data
  err_eq : e = none ∨ e = some w.stdin.ending.toError

/-- What a run of `main` on the file `f` that ended in the state `x` did. -/
structure MainResult (f : File) (x : Exit) : Prop where
  input_eq : x.input = firstLine newline f.data
  stdout_eq : x.world.stdout = youEntered ++ x.input
  stderr_eq : x.world.stderr = []
  log_eq : ∃ reads, OnlyReads reads ∧
    x.world.log = Event.call "bufio.ReadString" :: reads ++
      [Event.ret "bufio.ReadString", Event.call "fmt.Printf",
        Event.write 1 (youEntered ++ x.input), Event.ret "fmt.Printf"]
  rest_eq : x.reader.buf ++ x.world.stdin.data = afterFirstLine newline f.data
  err_iff : x.err = none ↔ newline ∈ f.data
  err_eq : x.err = none ∨ x.err = some f.ending.toError

/-- The reader `b` faces a standard input without end that holds no `delim`:
no `delim` in the buffer or in the data still to be delivered, zero bytes
after that, and no error pending. -/
def Endless (delim : Byte) (b : Reader) (w : World) : Prop :=
  w.zeros = true ∧ b.err = none ∧ delim ∉ b.buf ++ w.stdin.data ∧ 0 < b.size

/-! ## Lists of bytes -/

theorem IndexByte_none {l : List Byte} {c : Byte} (h : IndexByte l c = none) : c ∉ l := by
  induction l with
  | nil => simp
  | cons x xs ih =>
    simp only [IndexByte] at h
    split at h
    · simp at h
    · rename_i hx
      simp only [Option.map_eq_none'] at h
      simp only [List.mem_cons, not_or]
      exact ⟨fun hc => hx hc.symm, ih h⟩

theorem IndexByte_some {l : List Byte} {c : Byte} {i : Nat} (h : IndexByte l c = some i) :
    ∃ pre post, l = pre ++ c :: post ∧ c ∉ pre ∧ pre.length = i := by
  induction l generalizing i with
  | nil => simp [IndexByte] at h
  | cons x xs ih =>
    simp only [IndexByte] at h
    split at h
    · rename_i hx
      simp only [Option.some.injEq] at h
      exact ⟨[], xs, by simp [hx], by simp, by simpa using h⟩
    · rename_i hx
      simp only [Option.map_eq_some'] at h
      obtain ⟨j, hj, rfl⟩ := h
      obtain ⟨pre, post, hl, hpre, hlen⟩ := ih hj
      refine ⟨x :: pre, post, by simp [hl], ?_, by simp [hlen]⟩
      simp only [List.mem_cons, not_or]
      exact ⟨fun hc => hx hc.symm, hpre⟩

theorem firstLine_append_of_not_mem {d : Byte} {l : List Byte} (h : d ∉ l) (r : List Byte) :
    firstLine d (l ++ r) = l ++ firstLine d r := by
  induction l with
  | nil => rfl
  | cons x xs ih =>
    simp only [List.mem_cons, not_or] at h
    simp [firstLine, Ne.symm h.1, ih h.2]

theorem afterFirstLine_append_of_not_mem {d : Byte} {l : List Byte} (h : d ∉ l)
    (r : List Byte) : afterFirstLine d (l ++ r) = afterFirstLine d r := by
  induction l with
  | nil => rfl
  | cons x xs ih =>
    simp only [List.mem_cons, not_or] at h
    simp [afterFirstLine, Ne.symm h.1, ih h.2]

theorem firstLine_of_not_mem {d : Byte} {l : List Byte} (h : d ∉ l) : firstLine d l = l := by
  have := firstLine_append_of_not_mem h []
  simpa [firstLine] using this

theorem afterFirstLine_of_not_mem {d : Byte} {l : List Byte} (h : d ∉ l) :
    afterFirstLine d l = [] := by
  have := afterFirstLine_append_of_not_mem h []
  simpa [afterFirstLine] using this

theorem firstLine_line {d : Byte} {pre : List Byte} (h : d ∉ pre) (r : List Byte) :
    firstLine d (pre ++ d :: r) = pre ++ [d] := by
  rw [firstLine_append_of_not_mem h]
  simp [firstLine]

theorem afterFirstLine_line {d : Byte} {pre : List Byte} (h : d ∉ pre) (r : List Byte) :
    afterFirstLine d (pre ++ d :: r) = r := by
  rw [afterFirstLine_append_of_not_mem h]
  simp [afterFirstLine]

theorem firstLine_append_afterFirstLine (d : Byte) (l : List Byte) :
    firstLine d l ++ afterFirstLine d l = l := by
  induction l with
  | nil => rfl
  | cons x xs ih =>
    by_cases hx : x = d
    · simp [firstLine, afterFirstLine, hx]
    · simp [firstLine, afterFirstLine, hx, ih]

theorem firstLine_of_mem {d : Byte} {l : List Byte} (h : d ∈ l) :
    ∃ pre, firstLine d l = pre ++ [d] ∧ d ∉ pre := by
  induction l with
  | nil => simp at h
  | cons x xs ih =>
    by_cases hx : x = d
    · exact ⟨[], by simp [firstLine, hx], by simp⟩
    · have hxs : d ∈ xs := by
        rcases List.mem_cons.mp h with h1 | h1
        · exact absurd h1.symm hx
        · exact h1
      obtain ⟨pre, hp, hn⟩ := ih hxs
      refine ⟨x :: pre, by simp [firstLine, hx, hp], ?_⟩
      simp only [List.mem_cons, not_or]
      exact ⟨fun hc => hx hc.symm, hn⟩

/-! ## Reading leaves everything but standard input alone -/

theorem Frame.refl (w : World) : Frame w w :=
  ⟨rfl, rfl, rfl, ⟨[], by simp, by intro e he; simp at he⟩, le_refl _, rfl⟩

theorem Frame.trans {w w1 w2 : World} (h1 : Frame w w1) (h2 : Frame w1 w2) : Frame w w2 := by
  obtain ⟨r1, hr1, ho1⟩ := h1.log_eq
  obtain ⟨r2, hr2, ho2⟩ := h2.log_eq
  refine ⟨h2.stdout_eq.trans h1.stdout_eq, h2.stderr_eq.trans h1.stderr_eq,
    h2.ending_eq.trans h1.ending_eq, ⟨r1 ++ r2, by rw [hr2, hr1, List.append_assoc], ?_⟩,
    le_trans h2.data_le h1.data_le, h2.zeros_eq.trans h1.zeros_eq⟩
  intro e he
  rcases List.mem_append.mp he with h | h
  · exact ho1 e h
  · exact ho2 e h

theorem fillLoop_succ_empty (i : Nat) (b : Reader) (w : World)
    (hlen : b.buf.length < b.size) (hd : w.stdin.data = []) (hz : w.zeros = false) :
    fillLoop (i + 1) b w =
      ({ b with err := some w.stdin.ending.toError },
        { w with log := w.log ++ [Event.read 0 0] }) := by
  have hcap : b.size - b.buf.length ≠ 0 := by omega
  simp [fillLoop, World.readStdin, File.Read, hcap, hd, hz]

theorem fillLoop_succ_data (i : Nat) (b : Reader) (w : World)
    (hlen : b.buf.length < b.size) (hd : w.stdin.data ≠ []) :
    fillLoop (i + 1) b w =
      ({ b with buf := b.buf ++ w.stdin.data.take (min (b.size - b.buf.length)
          (1 + w.stdin.avail.headD w.stdin.data.length)) },
        { w with
          stdin := { w.stdin with
            data := w.stdin.data.drop (min (b.size - b.buf.length)
              (1 + w.stdin.avail.headD w.stdin.data.length)),
            avail := w.stdin.avail.tail },
          log := w.log ++ [Event.read 0 (w.stdin.data.take (min (b.size - b.buf.length)
            (1 + w.stdin.avail.headD w.stdin.data.length))).length] }) := by
  have hcap : b.size - b.buf.length ≠ 0 := by omega
  have hpos : 0 < w.stdin.data.length := List.length_pos.mpr hd
  have hlt : 0 < (w.stdin.data.take (min (b.size - b.buf.length)
      (1 + w.stdin.avail.headD w.stdin.data.length))).length := by
    rw [List.length_take]; omega
  simp only [fillLoop, World.readStdin, File.Read, hcap, hd, and_false, if_false]
  simp only [gt_iff_lt, hlt, if_true]

theorem fill_spec (b : Reader) (w : World) (hlen : b.buf.length < b.size) (herr : b.err = none)
    (hz : w.zeros = false ∨ w.stdin.data ≠ []) :
    ∃ p b1 w1, fill b w = Run.done (b1, w1) ∧ b1.buf = b.buf ++ p ∧ b1.size = b.size ∧
      p ++ w1.stdin.data = w.stdin.data ∧ Frame w w1 ∧
      ((b1.err = none ∧ p ≠ []) ∨
        (b1.err = some w.stdin.ending.toError ∧ p = [] ∧ w.stdin.data = [])) := by
  have hfill : fill b w = Run.done (fillLoop (99 + 1) b w) := by
    simp only [fill, ge_iff_le, Nat.not_le.mpr hlen, if_false]
    rfl
  rw [hfill]
  by_cases hd : w.stdin.data = []
  · have hz0 : w.zeros = false := hz.resolve_right (not_not.mpr hd)
    rw [fillLoop_succ_empty 99 b w hlen hd hz0]
    refine ⟨[], _, _, rfl, by simp, rfl, by simp [hd], ?_, ?_⟩
    · exact ⟨rfl, rfl, rfl, ⟨[Event.read 0 0], rfl, by intro e he; simp at he; exact ⟨0, he⟩⟩,
        le_refl _, rfl⟩
    · right
      exact ⟨rfl, rfl, hd⟩
  · rw [fillLoop_succ_data 99 b w hlen hd]
    have hpos : 0 < w.stdin.data.length := List.length_pos.mpr hd
    refine ⟨_, _, _, rfl, rfl, rfl, by simp, ?_, ?_⟩
    · refine ⟨rfl, rfl, rfl, ⟨_, rfl, ?_⟩, by simp, rfl⟩
      intro e he
      simp at he
      exact ⟨_, he⟩
    · left
      refine ⟨herr, ?_⟩
      intro h
      have h2 := congrArg List.length h
      rw [List.length_take, List.length_nil] at h2
      omega

/-! ## `ReadSlice` -/

theorem ReadSliceLoop_spec (delim : Byte) (fuel : Nat) :
    ∀ (s : Nat) (b : Reader) (w : World), 0 < b.size → Pending b w s →
      delim ∉ b.buf.take s → need b w ≤ fuel →
      (w.zeros = false ∨ delim ∈ b.buf ++ w.stdin.data) →
      ∃ line e b1 w1, ReadSliceLoop delim fuel s b w = Run.done ((line, e), b1, w1) ∧
        SliceResult delim b w line e b1 w1 := by
  induction fuel with
  | zero =>
    intro s b w _ _ _ hfuel _
    unfold need at hfuel
    split at hfuel <;> omega
  | succ fuel ih =>
    intro s b w hsize hpend hs hfuel hz
    cases hi : IndexByte (b.buf.drop s) delim with
    | some i =>
      obtain ⟨pre, post, hl, hpre, hlen⟩ := IndexByte_some hi
      have hslt : s < b.buf.length := by
        have h1 : 0 < (b.buf.drop s).length := by rw [hl]; simp
        rw [List.length_drop] at h1
        omega
      have herr : b.err = none := by
        rcases hpend with h | ⟨_, _, h⟩
        · exact h
        · omega
      obtain ⟨t, ht⟩ : ∃ t, t = b.buf.take s := ⟨_, rfl⟩
      have htlen : t.length = s := by rw [ht, List.length_take]; omega
      have hbuf : b.buf = (t ++ pre ++ [delim]) ++ post := by
        have h2 : b.buf = t ++ b.buf.drop s := by rw [ht, List.take_append_drop]
        rw [h2, hl]; simp
      have hl2 : i + s + 1 = (t ++ pre ++ [delim]).length := by
        simp [htlen, hlen]; omega
      have htake : b.buf.take (i + s + 1) = t ++ pre ++ [delim] := by
        rw [hbuf, hl2, List.take_left]
      refine ⟨b.buf.take (i + s + 1), none, { b with buf := b.buf.drop (i + s + 1) }, w, ?_,
        ⟨herr, rfl, Frame.refl w, ?_, ?_⟩⟩
      · simp only [ReadSliceLoop, hi]
      · simp only [← List.append_assoc, List.take_append_drop]
      · left
        refine ⟨rfl, t ++ pre, htake, ?_⟩
        rw [← ht] at hs
        simp only [List.mem_append, not_or]
        exact ⟨hs, hpre⟩
    | none =>
      have hnot : delim ∉ b.buf := by
        have h1 := IndexByte_none hi
        intro hmem
        rw [← List.take_append_drop s b.buf] at hmem
        rcases List.mem_append.mp hmem with h | h
        · exact hs h
        · exact h1 h
      cases herr : b.err with
      | some e =>
        have he : e = w.stdin.ending.toError ∧ w.stdin.data = [] := by
          rcases hpend with h | ⟨h, hd, _⟩
          · rw [herr] at h; simp at h
          · rw [herr] at h
            exact ⟨by simpa using h, hd⟩
        refine ⟨b.buf, some e, { b with buf := [], err := none }, w, ?_,
          ⟨rfl, rfl, Frame.refl w, by simp, ?_⟩⟩
        · simp only [ReadSliceLoop, hi, herr]
        · right; right
          exact ⟨by rw [he.1], hnot, rfl, he.2⟩
      | none =>
        by_cases hfull : b.buf.length ≥ b.size
        · refine ⟨b.buf, some Error.ErrBufferFull, { b with buf := [] }, w, ?_,
            ⟨herr, rfl, Frame.refl w, ?_, ?_⟩⟩
          · simp only [ReadSliceLoop, hi, herr, hfull, if_true]
          · simp
          · right; left
            refine ⟨rfl, hnot, ?_⟩
            intro h
            rw [h] at hfull
            simp at hfull
            omega
        · have hz1 : w.zeros = false ∨ w.stdin.data ≠ [] := by
            rcases hz with h | h
            · exact Or.inl h
            · right
              intro hd
              rw [hd, List.append_nil] at h
              exact hnot h
          obtain ⟨p, b1, w1, hfill, hb1, hsz, hdata, hframe, hkind⟩ :=
            fill_spec b w (Nat.not_le.mp hfull) herr hz1
          have hz2 : w1.zeros = false ∨ delim ∈ b1.buf ++ w1.stdin.data := by
            rw [hframe.zeros_eq, hb1, List.append_assoc, hdata]
            exact hz
          have hneed : need b1 w1 ≤ fuel := by
            unfold need at hfuel ⊢
            rw [herr] at hfuel
            simp only [if_true] at hfuel
            have hlen := congrArg List.length hdata
            rw [List.length_append] at hlen
            rcases hkind with ⟨h1, hp⟩ | ⟨h1, _, _⟩
            · have : 0 < p.length := List.length_pos.mpr hp
              rw [h1]; simp only [if_true]; omega
            · rw [h1]; simp only [reduceCtorEq, if_false]; omega
          have hpend1 : Pending b1 w1 b.buf.length := by
            rcases hkind with ⟨h1, _⟩ | ⟨h1, hp, hd⟩
            · exact Or.inl h1
            · right
              refine ⟨by rw [h1, hframe.ending_eq], ?_, by rw [hb1, hp]; simp⟩
              rw [hp, hd] at hdata
              simpa using hdata
          have hs1 : delim ∉ b1.buf.take b.buf.length := by
            rw [hb1, List.take_left]
            exact hnot
          obtain ⟨line, e, b2, w2, hrun, hres⟩ :=
            ih b.buf.length b1 w1 (by rw [hsz]; exact hsize) hpend1 hs1 hneed hz2
          refine ⟨line, e, b2, w2, ?_, ⟨hres.err_none, hres.size_eq.trans hsz,
            hframe.trans hres.frame, ?_, ?_⟩⟩
          · simp only [ReadSliceLoop, hi, herr, hfull, if_false, hfill, hrun]
          · rw [hres.split, hb1, List.append_assoc, hdata]
          · rw [← hframe.ending_eq]
            exact hres.kind

/-! ## `collectFragments` and `ReadString` -/

theorem Ending.toError_ne_full (x : Ending) : x.toError ≠ Error.ErrBufferFull := by
  cases x <;> simp [Ending.toError]

theorem collectFragmentsLoop_spec (delim : Byte) (n fuel : Nat) :
    ∀ (full : List (List Byte)) (b : Reader) (w : World), 0 < b.size → b.err = none →
      w.stdin.data.length + 2 ≤ n → (b.buf ++ w.stdin.data).length + 1 ≤ fuel →
      (w.zeros = false ∨ delim ∈ b.buf ++ w.stdin.data) →
      ∃ full1 frag e b1 w1 text,
        collectFragmentsLoop delim n fuel full b w = Run.done ((full1, frag, e), b1, w1) ∧
        full1.flatten ++ frag = full.flatten ++ text ∧ LineResult delim b w text e b1 w1 := by
  induction fuel with
  | zero => intro full b w _ _ _ hfuel _; omega
  | succ fuel ih =>
    intro full b w hsize herr hn hfuel hz
    have hneed : need b w ≤ n := by
      unfold need; rw [herr]; simpa using hn
    obtain ⟨line, e, b1, w1, hrun, hres⟩ :=
      ReadSliceLoop_spec delim n 0 b w hsize (Or.inl herr) (by simp) hneed hz
    have hsplit := hres.split
    rcases hres.kind with ⟨he, pre, hline, hpre⟩ | ⟨he, hnot, hne⟩ | ⟨he, hnot, hb1, hd1⟩
    · refine ⟨full, line, none, b1, w1, line, ?_, rfl,
        ⟨hres.err_none, hres.size_eq, hres.frame, ?_, ?_, ?_, Or.inl rfl⟩⟩
      · simp only [collectFragmentsLoop, ReadSlice, hrun, he]
      · rw [← hsplit, hline, List.append_assoc, List.singleton_append, firstLine_line hpre]
      · rw [← hsplit, hline, List.append_assoc, List.singleton_append,
          afterFirstLine_line hpre]
      · rw [← hsplit, hline]
        simp
    · have hlen := congrArg List.length hsplit
      rw [List.length_append] at hlen
      have hpos : 0 < line.length := List.length_pos.mpr hne
      obtain ⟨full1, frag, e1, b2, w2, text, hloop, hflat, hlr⟩ :=
        ih (full ++ [line]) b1 w1 (by rw [hres.size_eq]; exact hsize) hres.err_none
          (le_trans (Nat.add_le_add_right hres.frame.data_le 2) hn) (by omega)
          (by
            rw [hres.frame.zeros_eq]
            rcases hz with h | h
            · exact Or.inl h
            · right
              rw [← hsplit] at h
              exact (List.mem_append.mp h).resolve_left hnot)
      refine ⟨full1, frag, e1, b2, w2, line ++ text, ?_, ?_,
        ⟨hlr.err_none, hlr.size_eq.trans hres.size_eq, hres.frame.trans hlr.frame, ?_, ?_, ?_,
          ?_⟩⟩
      · simp only [collectFragmentsLoop, ReadSlice, hrun, he, ne_eq, not_true_eq_false,
          if_false, hloop]
      · rw [hflat]; simp
      · rw [← hsplit, firstLine_append_of_not_mem hnot, hlr.text_eq]
      · rw [← hsplit, afterFirstLine_append_of_not_mem hnot, hlr.rest_eq]
      · rw [hlr.err_iff, ← hsplit]
        simp [hnot]
      · rw [← hres.frame.ending_eq]
        exact hlr.err_eq
    · have htotal : b.buf ++ w.stdin.data = line := by
        rw [← hsplit, hb1, hd1]; simp
      refine ⟨full, line, e, b1, w1, line, ?_, rfl,
        ⟨hres.err_none, hres.size_eq, hres.frame, ?_, ?_, ?_, Or.inr he⟩⟩
      · simp only [collectFragmentsLoop, ReadSlice, hrun, he, ne_eq,
          Ending.toError_ne_full, not_false_eq_true, if_true]
      · rw [htotal, firstLine_of_not_mem hnot]
      · rw [htotal, afterFirstLine_of_not_mem hnot, hb1, hd1]; rfl
      · rw [htotal, he]
        simp [hnot]

theorem ReadString_spec (delim : Byte) (fuel : Nat) (b : Reader) (w : World)
    (hsize : 0 < b.size) (herr : b.err = none)
    (hfuel : (b.buf ++ w.stdin.data).length + 2 ≤ fuel)
    (hz : w.zeros = false ∨ delim ∈ b.buf ++ w.stdin.data) :
    ∃ text e b1 w1, ReadString fuel b delim w = Run.done ((text, e), b1, w1) ∧
      LineResult delim b w text e b1 w1 := by
  have hn : w.stdin.data.length + 2 ≤ fuel := by
    rw [List.length_append] at hfuel; omega
  obtain ⟨full1, frag, e, b1, w1, text, hloop, hflat, hlr⟩ :=
    collectFragmentsLoop_spec delim fuel fuel [] b w hsize herr hn (by omega) hz
  refine ⟨text, e, b1, w1, ?_, hlr⟩
  simp only [ReadString, collectFragments, hloop]
  simp only [List.flatten_nil, List.nil_append] at hflat
  rw [hflat]

/-! ## `Printf` and `main` -/

theorem doPrintf_fmtYouEntered (a : List Byte) :
    doPrintf fmtYouEntered [a] = some (youEntered ++ a) := by
  simp [fmtYouEntered, youEntered, doPrintf]

theorem mainAfterRead_eq (r : List Byte × Option Error) (reader : Reader) (w : World) :
    mainAfterRead r reader w =
      Run.done { world := { w with
                   stdout := w.stdout ++ (youEntered ++ r.1),
                   log := w.log ++ [Event.call "fmt.Printf",
                     Event.write 1 (youEntered ++ r.1), Event.ret "fmt.Printf"] },
                 reader := reader, input := r.1, err := r.2 } := by
  simp [mainAfterRead, Printf, doPrintf_fmtYouEntered, World.writeStdout]

theorem main_spec_with (f : File) (z : Bool) (k : Nat) (hz : z = false ∨ newline ∈ f.data) :
    ∃ x, main (fuelFor f + k) (World.initWith f z) = Run.done x ∧ MainResult f x := by
  obtain ⟨text, e, b1, w1, hrun, hlr⟩ :=
    ReadString_spec newline (fuelFor f + k) NewReader
      { World.initWith f z with
        log := (World.initWith f z).log ++ [Event.call "bufio.ReadString"] }
      (by simp [NewReader, defaultBufSize]) rfl
      (by simp [NewReader, World.initWith, fuelFor])
      (by simpa [NewReader, World.initWith] using hz)
  obtain ⟨reads, hlog, hreads⟩ := hlr.frame.log_eq
  have hout := hlr.frame.stdout_eq
  have herr := hlr.frame.stderr_eq
  have htext := hlr.text_eq
  have hrest := hlr.rest_eq
  have hiff := hlr.err_iff
  have heq := hlr.err_eq
  simp only [NewReader, World.initWith, List.nil_append] at hlog hout herr htext hrest hiff heq
  have hmain : main (fuelFor f + k) (World.initWith f z) =
      mainAfterRead (text, e) b1
        { w1 with log := w1.log ++ [Event.ret "bufio.ReadString"] } := by
    simp only [main, hrun]
  rw [hmain, mainAfterRead_eq]
  exact ⟨_, rfl, ⟨htext, by simp [hout], herr, ⟨reads, hreads, by simp [hlog]⟩, hrest, hiff,
    heq⟩⟩

theorem main_spec (f : File) (k : Nat) :
    ∃ x, main (fuelFor f + k) (World.init f) = Run.done x ∧ MainResult f x :=
  main_spec_with f false k (Or.inl rfl)

theorem youEntered_eq :
    youEntered = "You entered: ".toList.map (fun c => UInt8.ofNat c.toNat) := by
  decide

theorem newline_not_mem_youEntered : newline ∉ youEntered := by
  decide

theorem main_output_eq (f : File) (k : Nat) :
    (main (fuelFor f + k) (World.init f)).output
      = some (youEntered ++ firstLine newline f.data) := by
  obtain ⟨x, hx, hres⟩ := main_spec f k
  rw [hx]
  simp only [Run.output, hres.stdout_eq, hres.input_eq]

theorem writes_append (l1 l2 : List Event) : writes (l1 ++ l2) = writes l1 ++ writes l2 := by
  induction l1 with
  | nil => rfl
  | cons e es ih => cases e <;> simp [writes, ih]

theorem writes_of_onlyReads {reads : List Event} (h : OnlyReads reads) : writes reads = [] := by
  induction reads with
  | nil => rfl
  | cons e es ih =>
    obtain ⟨n, hn⟩ := h e (by simp)
    subst hn
    simp only [writes]
    exact ih (fun e he => h e (List.mem_cons_of_mem _ he))

theorem writes_main_log (reads : List Event) (h : OnlyReads reads) (out : List Byte) :
    writes (Event.call "bufio.ReadString" :: reads ++
      [Event.ret "bufio.ReadString", Event.call "fmt.Printf", Event.write 1 out,
        Event.ret "fmt.Printf"]) = [(1, out)] := by
  rw [List.cons_append]
  simp only [writes]
  rw [writes_append, writes_of_onlyReads h]
  rfl

theorem calls_append (l1 l2 : List Event) : calls (l1 ++ l2) = calls l1 ++ calls l2 := by
  induction l1 with
  | nil => rfl
  | cons e es ih => cases e <;> simp [calls, ih]

theorem calls_of_onlyReads {reads : List Event} (h : OnlyReads reads) : calls reads = [] := by
  induction reads with
  | nil => rfl
  | cons e es ih =>
    obtain ⟨n, hn⟩ := h e (by simp)
    subst hn
    simp only [calls]
    exact ih (fun e he => h e (List.mem_cons_of_mem _ he))

theorem calls_main_log (reads : List Event) (h : OnlyReads reads) (out : List Byte) :
    calls (Event.call "bufio.ReadString" :: reads ++
      [Event.ret "bufio.ReadString", Event.call "fmt.Printf", Event.write 1 out,
        Event.ret "fmt.Printf"]) = ["bufio.ReadString", "fmt.Printf"] := by
  rw [List.cons_append]
  simp only [calls]
  rw [calls_append, calls_of_onlyReads h]
  rfl

theorem firstLine_initial (d : Byte) (l : List Byte) : firstLine d l <+: l :=
  ⟨afterFirstLine d l, firstLine_append_afterFirstLine d l⟩

theorem firstLine_count_le (d : Byte) (l : List Byte) : (firstLine d l).count d ≤ 1 := by
  by_cases h : d ∈ l
  · obtain ⟨pre, hp, hn⟩ := firstLine_of_mem h
    rw [hp, List.count_append, List.count_eq_zero_of_not_mem hn]
    simp
  · rw [firstLine_of_not_mem h, List.count_eq_zero_of_not_mem h]
    exact Nat.zero_le 1

theorem firstLine_idem (d : Byte) (l : List Byte) : firstLine d (firstLine d l) = firstLine d l := by
  by_cases h : d ∈ l
  · obtain ⟨pre, hp, hn⟩ := firstLine_of_mem h
    rw [hp]
    exact firstLine_line hn []
  · rw [firstLine_of_not_mem h, firstLine_of_not_mem h]

theorem firstLine_ends (d : Byte) (l pre post : List Byte)
    (h : firstLine d l = pre ++ d :: post) : post = [] ∧ d ∉ pre := by
  have hc := firstLine_count_le d l
  rw [h, List.count_append, List.count_cons_self] at hc
  have hpre : d ∉ pre := by
    intro hm
    have := List.count_pos_iff.mpr hm
    omega
  have hi := firstLine_idem d l
  rw [h, firstLine_line hpre] at hi
  have h2 : [d] = d :: post := List.append_cancel_left hi
  refine ⟨?_, hpre⟩
  simpa using h2.symm

/-! ## A standard input without end -/

theorem IndexByte_of_not_mem {l : List Byte} {c : Byte} (h : c ∉ l) : IndexByte l c = none := by
  cases hi : IndexByte l c with
  | none => rfl
  | some i =>
    obtain ⟨pre, post, hl, _, _⟩ := IndexByte_some hi
    exact absurd (by rw [hl]; simp) h

theorem fillLoop_succ_zeros (i : Nat) (b : Reader) (w : World) (hlen : b.buf.length < b.size)
    (hd : w.stdin.data = []) (hz : w.zeros = true) :
    fillLoop (i + 1) b w =
      ({ b with buf := b.buf ++ List.replicate (b.size - b.buf.length) 0 },
        { w with log := w.log ++ [Event.read 0 (b.size - b.buf.length)] }) := by
  have hcap : 0 < b.size - b.buf.length := by omega
  simp [fillLoop, World.readStdin, hd, hz, hcap]

theorem fill_endless (delim : Byte) (h0 : delim ≠ 0) (b : Reader) (w : World)
    (hlen : b.buf.length < b.size) (h : Endless delim b w) :
    ∃ b1 w1, fill b w = Run.done (b1, w1) ∧ Endless delim b1 w1 := by
  obtain ⟨hz, herr, hnot, hsize⟩ := h
  have hfill : fill b w = Run.done (fillLoop (99 + 1) b w) := by
    simp only [fill, ge_iff_le, Nat.not_le.mpr hlen, if_false]
    rfl
  rw [hfill]
  by_cases hd : w.stdin.data = []
  · rw [fillLoop_succ_zeros 99 b w hlen hd hz]
    refine ⟨_, _, rfl, hz, herr, ?_, hsize⟩
    rw [hd, List.append_nil] at hnot
    simp only [hd, List.append_nil, List.mem_append, not_or]
    refine ⟨hnot, ?_⟩
    intro hm
    exact h0 (List.eq_of_mem_replicate hm)
  · rw [fillLoop_succ_data 99 b w hlen hd]
    refine ⟨_, _, rfl, hz, herr, ?_, hsize⟩
    simpa only [List.append_assoc, List.take_append_drop] using hnot

theorem ReadSliceLoop_endless (delim : Byte) (h0 : delim ≠ 0) (fuel : Nat) :
    ∀ (s : Nat) (b : Reader) (w : World), Endless delim b w →
      ReadSliceLoop delim fuel s b w = Run.outOfFuel ∨
        ∃ line b1 w1, ReadSliceLoop delim fuel s b w
            = Run.done ((line, some Error.ErrBufferFull), b1, w1) ∧ Endless delim b1 w1 := by
  induction fuel with
  | zero => intro s b w _; exact Or.inl rfl
  | succ fuel ih =>
    intro s b w h
    have hbuf : delim ∉ b.buf := fun hm => h.2.2.1 (List.mem_append_left _ hm)
    have hi : IndexByte (b.buf.drop s) delim = none :=
      IndexByte_of_not_mem (fun hm => hbuf (List.mem_of_mem_drop hm))
    have herr := h.2.1
    by_cases hfull : b.buf.length ≥ b.size
    · right
      refine ⟨b.buf, { b with buf := [] }, w, ?_, h.1, herr, ?_, h.2.2.2⟩
      · simp only [ReadSliceLoop, hi, herr, hfull, if_true]
      · exact fun hm => h.2.2.1 (List.mem_append_right _ (by simpa using hm))
    · obtain ⟨b1, w1, hfill, h1⟩ := fill_endless delim h0 b w (Nat.not_le.mp hfull) h
      have hstep : ReadSliceLoop delim (fuel + 1) s b w
          = ReadSliceLoop delim fuel b.buf.length b1 w1 := by
        simp only [ReadSliceLoop, hi, herr, hfull, if_false, hfill]
      rw [hstep]
      exact ih b.buf.length b1 w1 h1

theorem collectFragmentsLoop_endless (delim : Byte) (h0 : delim ≠ 0) (n fuel : Nat) :
    ∀ (full : List (List Byte)) (b : Reader) (w : World), Endless delim b w →
      collectFragmentsLoop delim n fuel full b w = Run.outOfFuel := by
  induction fuel with
  | zero => intro full b w _; rfl
  | succ fuel ih =>
    intro full b w h
    rcases ReadSliceLoop_endless delim h0 n 0 b w h with hrun | ⟨line, b1, w1, hrun, h1⟩
    · simp only [collectFragmentsLoop, ReadSlice, hrun]
    · simp only [collectFragmentsLoop, ReadSlice, hrun, ne_eq, not_true_eq_false, if_false]
      exact ih (full ++ [line]) b1 w1 h1

theorem main_endless (f : File) (fuel : Nat) (h : newline ∉ f.data) :
    main fuel (World.initWith f true) = Run.outOfFuel := by
  have hend : Endless newline NewReader
      { World.initWith f true with
        log := (World.initWith f true).log ++ [Event.call "bufio.ReadString"] } :=
    ⟨rfl, rfl, by simpa [NewReader, World.initWith] using h, by simp [NewReader, defaultBufSize]⟩
  have hloop := collectFragmentsLoop_endless newline (by decide) fuel fuel [] _ _ hend
  simp only [main, ReadString, collectFragments, hloop]

/-! ## The claims -/

/-- C1: for every input the output is the text "You entered: " immediately
followed by the captured text, which is the input up to and including its
first newline, or the whole input when it has no newline; in particular the
input `s ++ "\n"` with `s` free of newlines gives "You entered: " ++ s ++
"\n".  This holds for every way the input is cut into reads and for either
ending of the stream. -/
theorem main_output_label_then_first_line (f : File) (k : Nat) :
    (main (fuelFor f + k) (World.init f)).output
        = some (youEntered ++ firstLine newline f.data) ∧
      (newline ∉ f.data →
        (main (fuelFor f + k) (World.init f)).output = some (youEntered ++ f.data)) ∧
      (∀ s rest, newline ∉ s → f.data = s ++ newline :: rest →
        (main (fuelFor f + k) (World.init f)).output
          = some (youEntered ++ (s ++ [newline]))) ∧
      (∀ s, newline ∉ s → f.data = s ++ [newline] →
        (main (fuelFor f + k) (World.init f)).output
          = some (youEntered ++ s ++ [newline])) := by
  obtain ⟨x, hx, hres⟩ := main_spec f k
  have hout : (main (fuelFor f + k) (World.init f)).output
      = some (youEntered ++ firstLine newline f.data) := by
    rw [hx]
    simp only [Run.output, hres.stdout_eq, hres.input_eq]
  refine ⟨hout, ?_, ?_, ?_⟩
  · intro h
    rw [hout, firstLine_of_not_mem h]
  · intro s rest hs hd
    rw [hout, hd, firstLine_line hs]
  · intro s hs hd
    rw [hout, hd, firstLine_line hs, List.append_assoc]

/-- The input "hello\n" gives the output "You entered: hello\n". -/
theorem main_output_hello_newline :
    (main 8 (World.init (File.ofBytes [104, 101, 108, 108, 111, 10]))).output
      = some (youEntered ++ [104, 101, 108, 108, 111] ++ [10]) :=
  (main_output_label_then_first_line (File.ofBytes [104, 101, 108, 108, 111, 10]) 0).2.2.2
    [104, 101, 108, 108, 111] (by decide) rfl

/-- C3: for every non-empty input without a newline that is followed by
end-of-stream, the line read returns the error `io.EOF`, the program drops
it (nothing on standard error, exit status 0), and the output is
"You entered: " followed by the input, with nothing appended. -/
theorem main_no_newline_then_eof (f : File) (k : Nat) (_hne : f.data ≠ [])
    (hnl : newline ∉ f.data) (heof : f.ending = Ending.eof) :
    ∃ x, main (fuelFor f + k) (World.init f) = Run.done x ∧ x.err = some Error.EOF ∧
      x.input = f.data ∧ x.world.stdout = youEntered ++ f.data ∧ x.world.stderr = [] ∧
      (main (fuelFor f + k) (World.init f)).exitCode = some 0 := by
  obtain ⟨x, hx, hres⟩ := main_spec f k
  have hin : x.input = f.data := by rw [hres.input_eq, firstLine_of_not_mem hnl]
  refine ⟨x, hx, ?_, hin, by rw [hres.stdout_eq, hin], hres.stderr_eq, by rw [hx]; rfl⟩
  rcases hres.err_eq with h | h
  · exact absurd (hres.err_iff.mp h) hnl
  · rw [h, heof]; rfl

/-- The input "hello" followed by end-of-stream gives "You entered: hello". -/
theorem main_hello_then_eof :
    ∃ x, main 7 (World.init (File.ofBytes [104, 101, 108, 108, 111])) = Run.done x ∧
      x.err = some Error.EOF ∧ x.input = [104, 101, 108, 108, 111] ∧
      x.world.stdout = youEntered ++ [104, 101, 108, 108, 111] ∧ x.world.stderr = [] ∧
      (main 7 (World.init (File.ofBytes [104, 101, 108, 108, 111]))).exitCode = some 0 :=
  main_no_newline_then_eof (File.ofBytes [104, 101, 108, 108, 111]) 0 (by decide) (by decide)
    rfl

/-- C4: for the empty input (end-of-stream at once) the output is the 13
bytes "You entered: " and nothing else, and the program returns normally,
with exit status 0. -/
theorem main_empty_input (avail : List Nat) (k : Nat) :
    (main (2 + k) (World.init { data := [], avail := avail, ending := Ending.eof })).output
        = some youEntered ∧
      youEntered.length = 13 ∧
      (main (2 + k) (World.init { data := [], avail := avail, ending := Ending.eof })).exitCode
        = some 0 ∧
      (main (2 + k) (World.init { data := [], avail := avail, ending := Ending.eof })).errput
        = some [] := by
  obtain ⟨x, hx, hres⟩ := main_spec { data := [], avail := avail, ending := Ending.eof } k
  have hfuel : fuelFor { data := [], avail := avail, ending := Ending.eof } + k = 2 + k := by
    simp [fuelFor]
  rw [hfuel] at hx
  rw [hx]
  refine ⟨?_, rfl, rfl, ?_⟩
  · simp [Run.output, hres.stdout_eq, hres.input_eq, firstLine]
  · simp [Run.errput, hres.stderr_eq]

/-- C2 does not hold as stated: when the input "a\nb\n" is ready at once,
the output is "You entered: a\n", but nothing is left on standard input:
the buffered reader took "b\n" off the descriptor along with the first line
and holds it in its buffer when `main` returns. -/
theorem main_rest_taken_off_stdin :
    (main 6 (World.init (File.ofBytes [97, 10, 98, 10]))).output
        = some (youEntered ++ [97, 10]) ∧
      (main 6 (World.init (File.ofBytes [97, 10, 98, 10]))).stdinLeft = some [] ∧
      (main 6 (World.init (File.ofBytes [97, 10, 98, 10]))).stdinLeft ≠ some [98, 10] ∧
      (∃ x, main 6 (World.init (File.ofBytes [97, 10, 98, 10])) = Run.done x ∧
        x.reader.buf = [98, 10]) := by
  refine ⟨by decide, by decide, by decide, ?_⟩
  exact ⟨_, rfl, by decide⟩

/-- C2, amended: for every input `s ++ "\n" ++ rest` with `s` free of
newlines only the first line is captured and echoed: the output is
"You entered: " ++ s ++ "\n" whatever `rest` is (two inputs that agree up to
their first newline give the same output), and `rest` is neither captured
nor written: it is what is still in front of the reader when `main`
returns, the bytes in the reader's buffer followed by the bytes left on
standard input. -/
theorem main_first_line_only (f g : File) (k j : Nat) (s r1 r2 : List Byte)
    (hs : newline ∉ s) (hf : f.data = s ++ newline :: r1) (hg : g.data = s ++ newline :: r2) :
    (∃ x, main (fuelFor f + k) (World.init f) = Run.done x ∧ x.err = none ∧
        x.input = s ++ [newline] ∧ x.world.stdout = youEntered ++ s ++ [newline] ∧
        x.reader.buf ++ x.world.stdin.data = r1) ∧
      (main (fuelFor f + k) (World.init f)).output
        = (main (fuelFor g + j) (World.init g)).output := by
  obtain ⟨x, hx, hres⟩ := main_spec f k
  have hin : x.input = s ++ [newline] := by rw [hres.input_eq, hf, firstLine_line hs]
  refine ⟨⟨x, hx, ?_, hin, ?_, ?_⟩, ?_⟩
  · rw [hres.err_iff, hf]; simp
  · rw [hres.stdout_eq, hin, List.append_assoc]
  · rw [hres.rest_eq, hf, afterFirstLine_line hs]
  · rw [(main_output_eq f k), (main_output_eq g j),
      hf, hg, firstLine_line hs, firstLine_line hs]

/-- The inputs "a\nb\n" and "a\n" both give "You entered: a\n"; after the
first, "b\n" is what is still in front of the reader. -/
theorem main_first_line_only_a_b :
    (∃ x, main 6 (World.init (File.ofBytes [97, 10, 98, 10])) = Run.done x ∧ x.err = none ∧
        x.input = [97] ++ [newline] ∧ x.world.stdout = youEntered ++ [97] ++ [newline] ∧
        x.reader.buf ++ x.world.stdin.data = [98, 10]) ∧
      (main 6 (World.init (File.ofBytes [97, 10, 98, 10]))).output
        = (main 4 (World.init (File.ofBytes [97, 10]))).output :=
  main_first_line_only (File.ofBytes [97, 10, 98, 10]) (File.ofBytes [97, 10]) 0 0 [97]
    [98, 10] [] (by decide) rfl rfl

/-- C5: what `main` does after the read does not depend on the error the
read returned: for every text `d` and error value `e` the program writes
"You entered: " ++ d to standard output in one write, writes nothing to
standard error, and returns with exit status 0; runs that differ only in
the error value have the same output, the same effects and the same exit
status.  A whole run always ends with exit status 0, an empty standard
error and that single write. -/
theorem main_ignores_read_error (d : List Byte) (e e1 : Option Error) (reader : Reader)
    (w : World) (f : File) (k : Nat) :
    (mainAfterRead (d, e) reader w).output = some (w.stdout ++ (youEntered ++ d)) ∧
      (mainAfterRead (d, e) reader w).errput = some w.stderr ∧
      (mainAfterRead (d, e) reader w).exitCode = some 0 ∧
      (mainAfterRead (d, e) reader w).trace
        = some (w.log ++ [Event.call "fmt.Printf", Event.write 1 (youEntered ++ d),
            Event.ret "fmt.Printf"]) ∧
      (mainAfterRead (d, e) reader w).output = (mainAfterRead (d, e1) reader w).output ∧
      (mainAfterRead (d, e) reader w).errput = (mainAfterRead (d, e1) reader w).errput ∧
      (mainAfterRead (d, e) reader w).trace = (mainAfterRead (d, e1) reader w).trace ∧
      (mainAfterRead (d, e) reader w).exitCode = (mainAfterRead (d, e1) reader w).exitCode ∧
      (main (fuelFor f + k) (World.init f)).exitCode = some 0 ∧
      (main (fuelFor f + k) (World.init f)).errput = some [] ∧
      (∃ x, main (fuelFor f + k) (World.init f) = Run.done x ∧
        x.world.stdout = youEntered ++ x.input ∧
        writes x.world.log = [(1, youEntered ++ x.input)]) := by
  simp only [mainAfterRead_eq]
  refine ⟨rfl, rfl, rfl, rfl, rfl, rfl, rfl, rfl, ?_⟩
  obtain ⟨x, hx, hres⟩ := main_spec f k
  rw [hx]
  refine ⟨rfl, by simp [Run.errput, hres.stderr_eq], x, rfl, hres.stdout_eq, ?_⟩
  obtain ⟨reads, hreads, hlog⟩ := hres.log_eq
  rw [hlog]
  exact writes_main_log reads hreads _

/-- C6: no newline is added to what was captured: for every input the
output ends with a newline exactly when the input contains a newline, the
output contains at most one newline, and a newline in the output is its
last byte. -/
theorem main_output_newline (f : File) (k : Nat) :
    ∃ out, (main (fuelFor f + k) (World.init f)).output = some out ∧
      (out.getLast? = some newline ↔ newline ∈ f.data) ∧
      out.count newline ≤ 1 ∧
      (newline ∈ out → out.getLast? = some newline) ∧
      (∀ pre post, out = pre ++ newline :: post → post = []) := by
  refine ⟨_, main_output_eq f k, ?_⟩
  have hyou := newline_not_mem_youEntered
  by_cases h : newline ∈ f.data
  · obtain ⟨pre, hp, hn⟩ := firstLine_of_mem h
    have hlast : (youEntered ++ firstLine newline f.data).getLast? = some newline := by
      rw [hp, ← List.append_assoc, List.getLast?_append]
      rfl
    refine ⟨⟨fun _ => h, fun _ => hlast⟩, ?_, fun _ => hlast, ?_⟩
    · rw [List.count_append, List.count_eq_zero_of_not_mem hyou]
      simpa using firstLine_count_le newline f.data
    · intro p q hpq
      rw [hp, ← List.append_assoc] at hpq
      have hnot : newline ∉ youEntered ++ pre := by
        simp only [List.mem_append, not_or]
        exact ⟨hyou, hn⟩
      have h1 : firstLine newline ((youEntered ++ pre) ++ [newline]) = p ++ newline :: q := by
        rw [firstLine_line hnot []]
        exact hpq
      exact (firstLine_ends newline _ p q h1).1
  · have hout : newline ∉ youEntered ++ firstLine newline f.data := by
      rw [firstLine_of_not_mem h]
      simp only [List.mem_append, not_or]
      exact ⟨hyou, h⟩
    refine ⟨⟨fun hl => absurd (List.mem_of_getLast?_eq_some hl) hout, fun hm => absurd hm h⟩, ?_,
      fun hm => absurd hm hout, ?_⟩
    · rw [List.count_eq_zero_of_not_mem hout]
      exact Nat.zero_le 1
    · intro p q hpq
      exact absurd (by rw [hpq]; simp) hout

/-- C7 does not hold as stated: on a standard input that never ends and
holds no newline, such as `/dev/zero`, alone or after the bytes "hi", the
read never stops: `ReadSlice` returns `ErrBufferFull` each time, the loop
of `collectFragments` goes on, and `main` returns for no step budget. -/
theorem main_never_returns_on_zeros :
    (∀ fuel, main fuel (World.initWith (File.ofBytes []) true) = Run.outOfFuel) ∧
      (∀ fuel, main fuel (World.initWith (File.ofBytes [104, 105]) true) = Run.outOfFuel) ∧
      (¬ ∃ fuel x, main fuel (World.initWith (File.ofBytes []) true) = Run.done x) ∧
      (∀ fuel, (main fuel (World.initWith (File.ofBytes []) true)).exitCode = none) := by
  have h1 : ∀ fuel, main fuel (World.initWith (File.ofBytes []) true) = Run.outOfFuel :=
    fun fuel => main_endless (File.ofBytes []) fuel (by decide)
  refine ⟨h1, fun fuel => main_endless (File.ofBytes [104, 105]) fuel (by decide), ?_, ?_⟩
  · rintro ⟨fuel, x, hx⟩
    rw [h1 fuel] at hx
    exact Run.noConfusion hx
  · intro fuel
    rw [h1 fuel]
    rfl

/-- C7, amended: for every input stream that ends, with end-of-stream or a
stream error, or that holds a newline, the program returns, given a step
budget that covers the data of the stream, after one line read: `main`
enters `ReadString` once and `Printf` once, the read stops at the first
newline (no error), at end-of-stream or at a stream error, and the captured
text is an initial part of the input that does not go past the first
newline. -/
theorem main_terminates_after_one_line (f : File) (z : Bool) (k : Nat)
    (hz : z = false ∨ newline ∈ f.data) :
    ∃ x, main (fuelFor f + k) (World.initWith f z) = Run.done x ∧
      calls x.world.log = ["bufio.ReadString", "fmt.Printf"] ∧
      ((x.err = none ∧ x.input.getLast? = some newline) ∨
        (x.err = some Error.EOF ∧ f.ending = Ending.eof ∧ x.input = f.data) ∨
        (x.err = some Error.PathError ∧ f.ending = Ending.fault ∧ x.input = f.data)) ∧
      x.input <+: f.data ∧
      x.input.count newline ≤ 1 ∧
      (∀ pre post, x.input = pre ++ newline :: post → post = [] ∧ newline ∉ pre) := by
  obtain ⟨x, hx, hres⟩ := main_spec_with f z k hz
  obtain ⟨reads, hreads, hlog⟩ := hres.log_eq
  refine ⟨x, hx, ?_, ?_, ?_, ?_, ?_⟩
  · rw [hlog]
    exact calls_main_log reads hreads _
  · rcases hres.err_eq with h | h
    · left
      refine ⟨h, ?_⟩
      obtain ⟨pre, hp, _⟩ := firstLine_of_mem (hres.err_iff.mp h)
      rw [hres.input_eq, hp, List.getLast?_append]
      rfl
    · have hnl : newline ∉ f.data := by
        intro hm
        rw [hres.err_iff.mpr hm] at h
        simp at h
      have hin : x.input = f.data := by rw [hres.input_eq, firstLine_of_not_mem hnl]
      cases hend : f.ending with
      | eof =>
        right; left
        exact ⟨by rw [h, hend]; rfl, rfl, hin⟩
      | fault =>
        right; right
        exact ⟨by rw [h, hend]; rfl, rfl, hin⟩
  · rw [hres.input_eq]
    exact firstLine_initial newline f.data
  · rw [hres.input_eq]
    exact firstLine_count_le newline f.data
  · intro pre post hpp
    rw [hres.input_eq] at hpp
    exact firstLine_ends newline f.data pre post hpp

/-- The input "hi" followed by end-of-stream, and the input "a\n" followed
by zero bytes without end, both make `main` return after one line read. -/
theorem main_terminates_hi_and_line_then_zeros :
    (∃ x, main 4 (World.initWith (File.ofBytes [104, 105]) false) = Run.done x ∧
        calls x.world.log = ["bufio.ReadString", "fmt.Printf"] ∧
        ((x.err = none ∧ x.input.getLast? = some newline) ∨
          (x.err = some Error.EOF ∧ (File.ofBytes [104, 105]).ending = Ending.eof ∧
            x.input = (File.ofBytes [104, 105]).data) ∨
          (x.err = some Error.PathError ∧ (File.ofBytes [104, 105]).ending = Ending.fault ∧
            x.input = (File.ofBytes [104, 105]).data)) ∧
        x.input <+: (File.ofBytes [104, 105]).data ∧
        x.input.count newline ≤ 1 ∧
        (∀ pre post, x.input = pre ++ newline :: post → post = [] ∧ newline ∉ pre)) ∧
      (∃ x, main 4 (World.initWith (File.ofBytes [97, 10]) true) = Run.done x ∧
        calls x.world.log = ["bufio.ReadString", "fmt.Printf"] ∧
        ((x.err = none ∧ x.input.getLast? = some newline) ∨
          (x.err = some Error.EOF ∧ (File.ofBytes [97, 10]).ending = Ending.eof ∧
            x.input = (File.ofBytes [97, 10]).data) ∨
          (x.err = some Error.PathError ∧ (File.ofBytes [97, 10]).ending = Ending.fault ∧
            x.input = (File.ofBytes [97, 10]).data)) ∧
        x.input <+: (File.ofBytes [97, 10]).data ∧
        x.input.count newline ≤ 1 ∧
        (∀ pre post, x.input = pre ++ newline :: post → post = [] ∧ newline ∉ pre)) :=
  ⟨main_terminates_after_one_line (File.ofBytes [104, 105]) false 0 (Or.inl rfl),
    main_terminates_after_one_line (File.ofBytes [97, 10]) true 0 (Or.inr (by decide))⟩

/-- C8: nothing is written to standard output before the read has
returned: when `ReadString` returns, standard output is empty and the log
holds no write; in the log of the whole run no write comes before the return
of `ReadString`, no read comes after it, and the one write, of the whole
output, comes after it. -/
theorem main_reads_before_writing (f : File) (k : Nat) :
    (∃ r b w1, ReadString (fuelFor f + k) NewReader newline
        { stdin := f, stdout := [], stderr := [],
          log := [Event.call "bufio.ReadString"] } = Run.done (r, b, w1) ∧
        w1.stdout = [] ∧ writes w1.log = []) ∧
      ∃ x before after, main (fuelFor f + k) (World.init f) = Run.done x ∧
        x.world.log = before ++ Event.ret "bufio.ReadString" :: after ∧
        (∀ e ∈ before, e.isWrite = false) ∧ writes before = [] ∧
        (∀ e ∈ after, e.isRead = false) ∧ writes after = [(1, x.world.stdout)] := by
  constructor
  · obtain ⟨text, e, b1, w1, hrun, hlr⟩ :=
      ReadString_spec newline (fuelFor f + k) NewReader
        { stdin := f, stdout := [], stderr := [], log := [Event.call "bufio.ReadString"] }
        (by simp [NewReader, defaultBufSize]) rfl (by simp [NewReader, fuelFor]) (Or.inl rfl)
    obtain ⟨reads, hlog, hreads⟩ := hlr.frame.log_eq
    refine ⟨_, _, _, hrun, hlr.frame.stdout_eq, ?_⟩
    rw [hlog, writes_append, writes_of_onlyReads hreads]
    rfl
  · obtain ⟨x, hx, hres⟩ := main_spec f k
    obtain ⟨reads, hreads, hlog⟩ := hres.log_eq
    refine ⟨x, Event.call "bufio.ReadString" :: reads,
      [Event.call "fmt.Printf", Event.write 1 (youEntered ++ x.input), Event.ret "fmt.Printf"],
      hx, ?_, ?_, ?_, ?_, ?_⟩
    · rw [hlog]
    · intro e he
      rcases List.mem_cons.mp he with h | h
      · rw [h]; rfl
      · obtain ⟨n, hn⟩ := hreads e h
        rw [hn]; rfl
    · simp only [writes]
      exact writes_of_onlyReads hreads
    · intro e he
      simp only [List.mem_cons, List.mem_singleton, List.not_mem_nil, or_false] at he
      rcases he with h | h | h <;> rw [h] <;> rfl
    · rw [hres.stdout_eq]; rfl

/-- C9: every run of `main` enters one line read on standard input and then
one write on standard output and has no other effect: the operations in its
log are `ReadString` then `Printf`, the log holds one write, of the output
to descriptor 1, every read in it is of descriptor 0 and comes before that
write, nothing is written to standard error, and no file is opened, no
connection made and no environment variable read. -/
theorem main_effects (f : File) (k : Nat) :
    ∃ x, main (fuelFor f + k) (World.init f) = Run.done x ∧
      calls x.world.log = ["bufio.ReadString", "fmt.Printf"] ∧
      writes x.world.log = [(1, x.world.stdout)] ∧
      x.world.stderr = [] ∧
      (∃ reads, OnlyReads reads ∧
        x.world.log = Event.call "bufio.ReadString" :: reads ++
          [Event.ret "bufio.ReadString", Event.call "fmt.Printf",
            Event.write 1 x.world.stdout, Event.ret "fmt.Printf"]) ∧
      (∀ fd n, Event.read fd n ∈ x.world.log → fd = 0) ∧
      (∀ fd d, Event.write fd d ∈ x.world.log → fd = 1 ∧ d = x.world.stdout) ∧
      (∀ p, Event.openFile p ∉ x.world.log ∧ Event.connect p ∉ x.world.log ∧
        Event.getenv p ∉ x.world.log) := by
  obtain ⟨x, hx, hres⟩ := main_spec f k
  obtain ⟨reads, hreads, hlog⟩ := hres.log_eq
  rw [← hres.stdout_eq] at hlog
  have hmem : ∀ e ∈ x.world.log, (e = Event.call "bufio.ReadString" ∨ e ∈ reads) ∨
      e = Event.ret "bufio.ReadString" ∨ e = Event.call "fmt.Printf" ∨
      e = Event.write 1 x.world.stdout ∨ e = Event.ret "fmt.Printf" := by
    intro e he
    rw [hlog] at he
    simpa only [List.mem_cons, List.mem_append, List.mem_singleton, List.not_mem_nil,
      or_false] using he
  refine ⟨x, hx, ?_, ?_, hres.stderr_eq, ⟨reads, hreads, hlog⟩, ?_, ?_, ?_⟩
  · rw [hlog]
    exact calls_main_log reads hreads _
  · rw [hlog]
    exact writes_main_log reads hreads _
  · intro fd n he
    rcases hmem _ he with (h | h) | h | h | h | h
    · simp at h
    · obtain ⟨m, hm⟩ := hreads _ h
      simp only [Event.read.injEq] at hm
      exact hm.1
    all_goals simp at h
  · intro fd d he
    rcases hmem _ he with (h | h) | h | h | h | h
    · simp at h
    · obtain ⟨m, hm⟩ := hreads _ h
      simp at hm
    · simp at h
    · simp at h
    · simpa using h
    · simp at h
  · intro p
    refine ⟨?_, ?_, ?_⟩ <;>
    · intro he
      rcases hmem _ he with (h | h) | h | h | h | h
      · simp at h
      · obtain ⟨m, hm⟩ := hreads _ h
        simp at hm
      all_goals simp at h

/-- C10: the captured text is an operand of the `%s` verb and is not read
as a format: for every operand the format "You entered: %s" gives the text
"You entered: " followed by the operand's bytes unchanged, so for every
input the output is that text followed by the captured bytes, its length is
13 plus the length of the captured text, and the output without its first
13 bytes is the captured text, a prefix of the input. -/
theorem main_input_is_operand (f : File) (k : Nat) (a : List Byte) :
    doPrintf fmtYouEntered [a] = some (youEntered ++ a) ∧
      ∃ x, main (fuelFor f + k) (World.init f) = Run.done x ∧
        x.world.stdout = youEntered ++ x.input ∧
        x.world.stdout.length = 13 + x.input.length ∧
        x.world.stdout.drop 13 = x.input ∧
        x.world.stdout.drop 13 <+: f.data := by
  refine ⟨doPrintf_fmtYouEntered a, ?_⟩
  obtain ⟨x, hx, hres⟩ := main_spec f k
  have hlen : youEntered.length = 13 := rfl
  have hdrop : x.world.stdout.drop 13 = x.input := by
    rw [hres.stdout_eq, ← hlen, List.drop_left]
  refine ⟨x, hx, hres.stdout_eq, ?_, hdrop, ?_⟩
  · rw [hres.stdout_eq, List.length_append, hlen]
  · rw [hdrop, hres.input_eq]
    exact firstLine_initial newline f.data

/-- The input "%d %s 100%\n" and the input of the bytes 0xff 0xfe "\n",
which are not UTF-8, are echoed byte for byte. -/
theorem main_echoes_percent_and_raw_bytes :
    (main 13 (World.init (File.ofBytes [37, 100, 32, 37, 115, 32, 49, 48, 48, 37, 10]))).output
        = some (youEntered ++ [37, 100, 32, 37, 115, 32, 49, 48, 48, 37, 10]) ∧
      (main 5 (World.init (File.ofBytes [255, 254, 10]))).output
        = some (youEntered ++ [255, 254, 10]) := by
  constructor <;> decide

end PP2
